import Mathlib

/-
Verification of the CascadeGuard static analyzer (Go) against its
natural-language specification.

The development shallowly embeds the relevant Go code:
  * package graph   (src/graph/graph.go): Edge, CallGraph, AddEdge,
    AllPathsFrom / dfs, RetryAmplificationFactor, WorstCaseLatency;
  * package main    (src/analyzer.go): CallEdge, Graph, NewGraph,
    edgeRules, amplification / dfs, Analyze;
  * package rules   (src/unnamed/part_001, package rules): Edge, Violation,
    pathNodes, TimeoutInversionRule.Check, RetryAmplificationRule.Check,
    EndToEndTimeoutExceedRule.Check;
  * package output  (src/output/mermaid.go): Edge, Violation, RenderMermaid.

Go integer and time.Duration arithmetic is 64-bit two's complement; it is
modelled by Int together with an explicit wrap into [-2^63, 2^63) at every
arithmetic step (wadd / wmul below).

Violation/Finding Message and SourceHint fields are deterministic
fmt.Sprintf renderings of the same edge/threshold data that is kept in the
other fields; no claim quantifies their text, so the embedded records carry
the rule id, severity and path only.  (For the one equality claim about
RetryAmplificationRule with zero thresholds this is faithful: the Go
messages are built from the post-default threshold variables, hence are
equal on both sides exactly when the embedded projections are.)
-/

/-! ### 64-bit two's-complement arithmetic -/

/-- Modulus of 64-bit machine arithmetic. -/
def i64Mod : Int := 18446744073709551616

/-- Half of the modulus, the magnitude of the most negative int64. -/
def i64Half : Int := 9223372036854775808

/-- Reduction of an integer into the signed 64-bit range [-2^63, 2^63),
matching the value a Go int64 / time.Duration holds after overflow. -/
def wrap64 (n : Int) : Int := (n + i64Half) % i64Mod - i64Half

/-- Go 64-bit addition. -/
def wadd (a b : Int) : Int := wrap64 (a + b)

/-- Go 64-bit multiplication. -/
def wmul (a b : Int) : Int := wrap64 (a * b)

/-! ### Package graph (src/graph/graph.go) -/

/-- Edge of package graph: a directed call between two services.
Timeout is a time.Duration (int64 nanoseconds), MaxRetries a Go int.
The Backoff config struct is carried by the Go type but read by none of
the functions embedded here, so it is reduced to its HasJitter flag. -/
structure GEdge where
  From : String
  To : String
  Timeout : Int
  MaxRetries : Int
  HasJitter : Bool
  HasCircuitBreaker : Bool
  Idempotent : Bool
deriving DecidableEq, Repr

/-- CallGraph of package graph.  The Go struct holds a nodes map (written
by AddNode, read by nothing embedded here) and an adjacency map
adj : map[string][]Edge.  The adjacency map is modelled as a total
function defaulting to [] (a missing Go map key yields nil).  The edges
field records the sequence of AddEdge calls; it is the modelling handle
for the finite node universe used in the termination argument of dfs. -/
structure CallGraph where
  edges : List GEdge
  adj : String → List GEdge

/-- NewCallGraph creates an empty CallGraph. -/
def NewCallGraph : CallGraph := ⟨[], fun _ => []⟩

/-- AddEdge adds a directed call edge: adj[e.From] = append(adj[e.From], e). -/
def AddEdge (g : CallGraph) (e : GEdge) : CallGraph :=
  ⟨g.edges ++ [e], fun k => if k = e.From then g.adj k ++ [e] else g.adj k⟩

/-- A CallGraph built from a sequence of AddEdge calls. -/
def mkCallGraph (es : List GEdge) : CallGraph := es.foldl AddEdge NewCallGraph

/-- All node names mentioned by the edges of a graph, deduplicated.
This is the finite universe that the visited set of the Go dfs lives in. -/
def nodesOf (g : CallGraph) : List String :=
  (g.edges.flatMap (fun e => [e.From, e.To])).dedup

/-- Depth-first enumeration from graph.go.  The Go code carries the set
visited of nodes currently on the recursion stack (marked on entry,
unmarked by defer on exit) and tests visited[e.To].  Here the complement
is carried instead: avail is the list of nodes of the graph NOT on the
stack, so the Go test visited[e.To] is the failure of e.To ∈ avail, and
marking a node is erasing it from avail.  Every e.To encountered is a
node of the graph, so the complement representation is exact; it makes
termination structural (avail shrinks at every recursive call).
Each loop iteration either emits path ++ [e] (back-edge) or recurses;
a node with no out-edges emits the current path when it is non-empty. -/
def dfsGraph (g : CallGraph) (node : String) (avail : List String)
    (path : List GEdge) : List (List GEdge) :=
  if (g.adj node).isEmpty then
    if path.isEmpty then [] else [path]
  else
    (g.adj node).flatMap (fun e =>
      if h : e.To ∈ avail then
        dfsGraph g e.To (avail.erase e.To) (path ++ [e])
      else
        [path ++ [e]])
termination_by avail.length
decreasing_by
  have := List.length_erase_of_mem h
  have : avail ≠ [] := by
    intro hnil
    rw [hnil] at h
    exact absurd h (List.not_mem_nil _)
  have : 0 < avail.length := List.length_pos.mpr this
  simp only [List.length_erase_of_mem h]
  omega

/-- AllPathsFrom enumerates every path from root to a leaf node using DFS,
truncating at cycle-closing edges (graph.go).  The root starts marked, so
avail is the node universe minus the root. -/
def AllPathsFrom (g : CallGraph) (root : String) : List (List GEdge) :=
  dfsGraph g root ((nodesOf g).erase root) []

/-- RetryAmplificationFactor from graph.go: 1 for the empty path, else the
running Go-int product of (1 + MaxRetries) over the edges. -/
def RetryAmplificationFactor (path : List GEdge) : Int :=
  match path with
  | [] => 1
  | _ => path.foldl (fun factor e => wmul factor (wadd 1 e.MaxRetries)) 1

/-- WorstCaseLatency from graph.go: running Go-duration sum of
Timeout * (1 + MaxRetries) over the edges, 0 for the empty path. -/
def WorstCaseLatency (path : List GEdge) : Int :=
  path.foldl (fun total e => wadd total (wmul e.Timeout (wadd 1 e.MaxRetries))) 0

/-- Node-name sequence of an edge path: the first edge's source followed
by every edge's target (empty for the empty path). -/
def nodeSeq : List GEdge → List String
  | [] => []
  | e :: es => e.From :: (e :: es).map (fun x => x.To)

/-- Chain predicate: the edges link up consecutively and the final edge
ends at the given node (vacuous for the empty path). -/
def chainTo : List GEdge → String → Prop
  | [], _ => True
  | [e], n => e.To = n
  | e :: e' :: es, n => e'.From = e.To ∧ chainTo (e' :: es) n

/-! ### Package main (src/analyzer.go) -/

/-- CallEdge of the main-package analyzer. -/
structure CallEdge where
  Source : String
  Target : String
  Timeout : Int
  Retries : Int
  CircuitBreaker : Bool
  Method : String
  BackoffJitter : Bool
deriving DecidableEq, Repr

/-- Finding of the main-package analyzer (rule id, severity, node path;
the Message field is a Sprintf rendering of the same data, see header). -/
structure Finding where
  Rule : String
  Severity : String
  Path : List String
deriving DecidableEq, Repr

/-- Graph of the main-package analyzer: the input edge slice plus the
adjacency map adj : map[string][]CallEdge, modelled as a total function
defaulting to []. -/
structure Graph where
  Edges : List CallEdge
  Adj : String → List CallEdge

/-- NewGraph from analyzer.go: one pass appending each edge to
adj[e.Source]; no validation of any kind is performed and the function
cannot fail (its Go signature returns *Graph, not (*Graph, error)). -/
def NewGraph (edges : List CallEdge) : Graph :=
  ⟨edges,
   edges.foldl
     (fun adj e => fun k => if k = e.Source then adj k ++ [e] else adj k)
     (fun _ => [])⟩

/-- Methods treated as non-idempotent by edgeRules (the nonIdem map). -/
def nonIdem (m : String) : Bool := m = "POST" || m = "PATCH" || m = "DELETE"

/-- edgeRules from analyzer.go: per input edge, in order: the
timeout-inversion inner loop over adj[e.Target], then retry-without-cb,
then non-idempotent-retry, then backoff-no-jitter. -/
def edgeRules (g : Graph) : List Finding :=
  g.Edges.flatMap (fun e =>
    ((g.Adj e.Target).filterMap (fun d =>
        if 0 < e.Timeout ∧ e.Timeout < d.Timeout then
          some ⟨"timeout-inversion", "error", [e.Source, e.Target, d.Target]⟩
        else none))
    ++ (if 0 < e.Retries ∧ ¬e.CircuitBreaker then
          [⟨"retry-without-cb", "warning", [e.Source, e.Target]⟩] else [])
    ++ (if 0 < e.Retries ∧ nonIdem e.Method then
          [⟨"non-idempotent-retry", "error", [e.Source, e.Target]⟩] else [])
    ++ (if 0 < e.Retries ∧ ¬e.BackoffJitter then
          [⟨"backoff-no-jitter", "warning", [e.Source, e.Target]⟩] else []))

/-- dfs from analyzer.go.  Note there is NO visited set: recursion is
bounded only by the path-length cap len(np) < 10.  Per out-edge, a
retry-amplification finding is emitted when the running Go-int factor
exceeds 10, and then the recursion descends if the cap allows. -/
def dfsMain (g : Graph) (node : String) (path : List String) (factor : Int) :
    List Finding :=
  (g.Adj node).flatMap (fun e =>
    (if 10 < wmul factor (wadd 1 e.Retries) then
       [⟨"retry-amplification", "error", path ++ [e.Target]⟩]
     else [])
    ++ (if hlen : (path ++ [e.Target]).length < 10 then
          dfsMain g e.Target (path ++ [e.Target]) (wmul factor (wadd 1 e.Retries))
        else []))
termination_by 10 - path.length
decreasing_by
  simp only [List.length_append, List.length_cons, List.length_nil] at hlen ⊢
  omega

/-- True when some edge of the graph has the given node as target
(the incoming map of analyzer.go's amplification). -/
def hasIncoming (g : Graph) (s : String) : Bool :=
  g.Edges.any (fun e => e.Target = s)

/-- amplification from analyzer.go, parameterised by the order in which
the Go statement for src := range g.Adj enumerates the adjacency-map
keys.  Go randomises map iteration order, so any permutation of the key
set is a possible execution; the parameter makes that nondeterminism
explicit.  Each key that is nobody's target is a root and is explored by
dfsMain with initial path [src] and factor 1. -/
def amplificationOrder (g : Graph) (order : List String) : List Finding :=
  (order.filter (fun s => !hasIncoming g s)).flatMap
    (fun src => dfsMain g src [src] 1)

/-- Analyze from analyzer.go: edgeRules findings followed by
amplification findings, with the map-key order made explicit. -/
def analyzeOrder (g : Graph) (order : List String) : List Finding :=
  edgeRules g ++ amplificationOrder g order

/-! ### Package rules (src/unnamed/part_001) -/

/-- Edge of package rules. -/
structure REdge where
  Source : String
  Target : String
  Timeout : Int
  MaxRetries : Int
  Idempotent : Bool
  HasCircuitBreaker : Bool
  HasBackoff : Bool
  Jitter : Bool
deriving DecidableEq, Repr

/-- Violation of package rules (rule id, severity, node path; Message and
SourceHint are Sprintf renderings of the same data, see header). -/
structure Violation where
  Rule : String
  Severity : String
  Path : List String
deriving DecidableEq, Repr

/-- CallGraph interface of package rules: the three operations a rule may
call.  Implementations live outside the package (the tests use a mock);
rules are verified here against an arbitrary implementation, exactly as
the Go interface admits. -/
structure RCallGraph where
  AllEdges : List REdge
  OutEdges : String → List REdge
  Paths : List (List REdge)

/-- pathNodes from package rules: nil for an empty path, else the first
edge's source followed by every edge's target. -/
def pathNodes : List REdge → List String
  | [] => []
  | e :: es => e.Source :: (e :: es).map (fun x => x.Target)

/-- TimeoutInversionRule.Check: for each edge e and each downstream edge
d in OutEdges(e.Target), emit an error when e.Timeout > 0 and
d.Timeout > e.Timeout, recording path [e.Source, e.Target, d.Target].
The Go double loop appending to a slice is the flatMap/filterMap below. -/
def TimeoutInversionCheck (g : RCallGraph) : List Violation :=
  g.AllEdges.flatMap (fun e =>
    (g.OutEdges e.Target).filterMap (fun d =>
      if 0 < e.Timeout ∧ e.Timeout < d.Timeout then
        some ⟨"timeout-inversion", "error", [e.Source, e.Target, d.Target]⟩
      else none))

/-- Running Go-int product of (1 + MaxRetries) over a path: the loop
bodies of RetryAmplificationRule.Check (product) and of the analyzer. -/
def rProduct (p : List REdge) : Int :=
  p.foldl (fun product e => wmul product (wadd 1 e.MaxRetries)) 1

/-- RetryAmplificationRule.Check with configuration fields ErrorThreshold
and WarningThreshold.  A configured threshold of exactly 0 is replaced at
check time by the default (10 resp. 5); per path, product > errT emits an
error, else product > warnT emits a warning. -/
def RetryAmplificationCheck (errorThreshold warningThreshold : Int)
    (g : RCallGraph) : List Violation :=
  let errT := if errorThreshold = 0 then 10 else errorThreshold
  let warnT := if warningThreshold = 0 then 5 else warningThreshold
  g.Paths.filterMap (fun p =>
    if errT < rProduct p then
      some ⟨"retry-amplification", "error", pathNodes p⟩
    else if warnT < rProduct p then
      some ⟨"retry-amplification", "warning", pathNodes p⟩
    else none)

/-- Running Go-duration sum of Timeout * (1 + MaxRetries) over a path:
the worstCase loop body of EndToEndTimeoutExceedRule.Check. -/
def rWorstCase (p : List REdge) : Int :=
  p.foldl (fun worstCase e => wadd worstCase (wmul e.Timeout (wadd 1 e.MaxRetries))) 0

/-- EndToEndTimeoutExceedRule.Check with configuration field EntryTimeout:
nil when EntryTimeout is 0, else one error per path whose worst-case
latency exceeds EntryTimeout. -/
def EndToEndTimeoutExceedCheck (entryTimeout : Int) (g : RCallGraph) :
    List Violation :=
  if entryTimeout = 0 then []
  else
    g.Paths.filterMap (fun p =>
      if entryTimeout < rWorstCase p then
        some ⟨"e2e-timeout-exceed", "error", pathNodes p⟩
      else none)

/-! ### Package output (src/output/mermaid.go) -/

/-- Edge of package output (Timeout is already a rendered string here). -/
structure OutputEdge where
  Source : String
  Target : String
  Timeout : String
  Retries : Int
deriving DecidableEq, Repr

/-- Violation of package output, as consumed by the renderers. -/
structure OutputViolation where
  Rule : String
  Severity : String
  Message : String
  Path : List String
deriving DecidableEq, Repr

/-- CallGraph of package output: just the edge list. -/
structure OutputGraph where
  Edges : List OutputEdge
deriving DecidableEq, Repr

/-- Consecutive (source, target) name pairs of a violation path: the Go
loop for i := 0; i+1 < len(v.Path). -/
def consecPairs : List String → List (String × String)
  | [] => []
  | [_] => []
  | a :: b :: rest => (a, b) :: consecPairs (b :: rest)

/-- Membership test of the violationEdges set of RenderMermaid: the pair
(src, tgt) occurs consecutively in some violation's path.  The Go code
builds a map keyed on the name pair (not on edge identity) and tests it. -/
def coveredPair (vs : List OutputViolation) (src tgt : String) : Bool :=
  vs.any (fun v => (consecPairs v.Path).any (fun q => q.1 = src ∧ q.2 = tgt))

/-- Index collection loop of RenderMermaid: for i, e := range Edges,
append i to redIndices when violationEdges[{e.Source, e.Target}]. -/
def redIndicesAux (vs : List OutputViolation) (i : Nat) :
    List OutputEdge → List Nat
  | [] => []
  | e :: es =>
    if coveredPair vs e.Source e.Target then
      i :: redIndicesAux vs (i + 1) es
    else
      redIndicesAux vs (i + 1) es

/-- Indices of the edges that RenderMermaid styles red, in input order. -/
def redIndices (g : OutputGraph) (vs : List OutputViolation) : List Nat :=
  redIndicesAux vs 0 g.Edges

/-- One mermaid edge line: two spaces, SRC -->|"TIMEOUT/RETRIES"| TGT. -/
def edgeLine (e : OutputEdge) : String :=
  "  " ++ e.Source ++ " -->|\"" ++ e.Timeout ++ "/" ++ toString e.Retries
    ++ "\"| " ++ e.Target

/-- One mermaid linkStyle line for the edge at the given input index. -/
def linkStyleLine (i : Nat) : String :=
  "  linkStyle " ++ toString i ++ " stroke:red"

/-- Line list produced by RenderMermaid: the graph LR header, one edge
line per input edge, then one linkStyle line per red index. -/
def renderMermaidLines (g : OutputGraph) (vs : List OutputViolation) :
    List String :=
  ("graph LR" :: g.Edges.map edgeLine) ++ (redIndices g vs).map linkStyleLine

/-- RenderMermaid writes the lines joined by single newlines and without
a trailing newline. -/
def RenderMermaid (g : OutputGraph) (vs : List OutputViolation) : String :=
  String.intercalate "\n" (renderMermaidLines g vs)

/-! ### Concrete instances used in witnesses and counterexamples -/

/-- Self-loop edge X -> X with 500ms timeout and 4 retries (test scenario 6). -/
def eSelfX : GEdge := ⟨"X", "X", 500000000, 4, true, true, true⟩

/-- Graph with the single self-loop edge. -/
def gSelfX : CallGraph := mkCallGraph [eSelfX]

/-- Analyzer edge B -> A with 3 retries. -/
def ceBA : CallEdge := ⟨"B", "A", 1000000000, 3, true, "GET", true⟩

/-- Analyzer self-loop edge A -> A with 3 retries. -/
def ceAA : CallEdge := ⟨"A", "A", 1000000000, 3, true, "GET", true⟩

/-- Analyzer graph with a tail edge into a self-loop: root B, cycle at A. -/
def gLoop : Graph := NewGraph [ceBA, ceAA]

/-- A malformed analyzer edge: empty source, negative timeout, negative
retries. -/
def ceBad : CallEdge := ⟨"", "B", -5, -2, false, "GET", false⟩

/-- Analyzer edge A -> B with 10 retries (amplification factor 11). -/
def ceAB10 : CallEdge := ⟨"A", "B", 0, 10, true, "GET", true⟩

/-- Analyzer edge C -> D with 10 retries (amplification factor 11). -/
def ceCD10 : CallEdge := ⟨"C", "D", 0, 10, true, "GET", true⟩

/-- Analyzer graph with two independent roots A and C. -/
def gTwoRoots : Graph := NewGraph [ceAB10, ceCD10]

/-- Rules edge with 3 retries: path product 4. -/
def reAB3 : REdge := ⟨"A", "B", 1, 3, true, true, true, true⟩

/-- Rules graph whose path enumeration yields the single path [A -> B],
product 4. -/
def rgAB3 : RCallGraph := ⟨[reAB3], fun _ => [], [[reAB3]]⟩

/-- Rules edge with 7 retries: path product 8. -/
def reAB7 : REdge := ⟨"A", "B", 1, 7, true, true, true, true⟩

/-- Rules graph whose path enumeration yields the single path [A -> B],
product 8. -/
def rgAB7 : RCallGraph := ⟨[reAB7], fun _ => [], [[reAB7]]⟩

/-- Rules edge with 0 retries: path product 1. -/
def reAB0 : REdge := ⟨"A", "B", 1, 0, true, true, true, true⟩

/-- Rules graph whose path enumeration yields the single path [A -> B],
product 1. -/
def rgAB0 : RCallGraph := ⟨[reAB0], fun _ => [], [[reAB0]]⟩

/-- Rules edge with timeout 2 and 4 retries: worst-case latency 10. -/
def reE2E : REdge := ⟨"A", "B", 2, 4, true, true, true, true⟩

/-- Rules graph whose path enumeration yields the single path [A -> B],
worst-case latency 10. -/
def rgE2E : RCallGraph := ⟨[reE2E], fun _ => [], [[reE2E]]⟩

/-- Output edges: two duplicates A -> B plus B -> C. -/
def ogDup : OutputGraph :=
  ⟨[⟨"A", "B", "3s", 1⟩, ⟨"A", "B", "5s", 2⟩, ⟨"B", "C", "1s", 0⟩]⟩

/-- A violation whose path covers the name pair (A, B). -/
def ovAB : OutputViolation :=
  ⟨"timeout-inversion", "error", "downstream timeout exceeds upstream",
   ["A", "B"]⟩

/-! ### Arithmetic lemmas for the 64-bit wrap -/

/-- Wrapping preserves the residue modulo 2^64. -/
theorem wrap64_emod (a : Int) : wrap64 a % i64Mod = a % i64Mod := by
  unfold wrap64 i64Mod i64Half
  omega

/-- Equal residues wrap to the same representative. -/
theorem wrap64_congr {a b : Int} (h : a % i64Mod = b % i64Mod) :
    wrap64 a = wrap64 b := by
  unfold i64Mod at h
  have h2 : (a + i64Half) % i64Mod = (b + i64Half) % i64Mod := by
    unfold i64Mod i64Half
    omega
  unfold wrap64
  rw [h2]

/-- Values already inside the signed 64-bit range are fixed by wrap64. -/
theorem wrap64_small {n : Int} (h1 : -i64Half ≤ n) (h2 : n < i64Half) :
    wrap64 n = n := by
  unfold wrap64 i64Mod i64Half at *
  omega

/-- Addition absorbs a wrapped left argument. -/
theorem wadd_wrap_left (a b : Int) : wadd (wrap64 a) b = wrap64 (a + b) := by
  unfold wadd
  exact wrap64_congr (by rw [Int.add_emod, wrap64_emod, ← Int.add_emod])

/-- Addition absorbs a wrapped right argument. -/
theorem wadd_wrap_right (a b : Int) : wadd a (wrap64 b) = wrap64 (a + b) := by
  unfold wadd
  exact wrap64_congr (by rw [Int.add_emod, wrap64_emod, ← Int.add_emod])

/-- Multiplication absorbs a wrapped left argument. -/
theorem wmul_wrap_left (a b : Int) : wmul (wrap64 a) b = wrap64 (a * b) := by
  unfold wmul
  exact wrap64_congr (by rw [Int.mul_emod, wrap64_emod, ← Int.mul_emod])

/-- Multiplication absorbs a wrapped right argument. -/
theorem wmul_wrap_right (a b : Int) : wmul a (wrap64 b) = wrap64 (a * b) := by
  unfold wmul
  exact wrap64_congr (by rw [Int.mul_emod, wrap64_emod, ← Int.mul_emod])

/-- Accumulator form of the worst-case-latency loop: starting from a
wrapped accumulator, the loop computes the wrap of the exact sum. -/
theorem latency_foldl_wrap {α : Type} (t r : α → Int) (l : List α) (a : Int) :
    l.foldl (fun total e => wadd total (wmul (t e) (wadd 1 (r e)))) (wrap64 a)
      = wrap64 (a + (l.map (fun e => t e * (1 + r e))).sum) := by
  induction l generalizing a with
  | nil => simp
  | cons e es ih =>
    have hstep : wadd (wrap64 a) (wmul (t e) (wadd 1 (r e)))
        = wrap64 (a + t e * (1 + r e)) := by
      have h1 : wmul (t e) (wadd 1 (r e)) = wrap64 (t e * (1 + r e)) := by
        unfold wadd
        exact wmul_wrap_right _ _
      rw [h1, wadd_wrap_left]
      exact wrap64_congr (by rw [Int.add_emod, wrap64_emod, ← Int.add_emod])
    simp only [List.foldl_cons, hstep, ih, List.map_cons, List.sum_cons]
    congr 1
    ring

/-- Accumulator form of the amplification-product loop: starting from a
wrapped accumulator, the loop computes the wrap of the exact product. -/
theorem product_foldl_wrap {α : Type} (r : α → Int) (l : List α) (a : Int) :
    l.foldl (fun factor e => wmul factor (wadd 1 (r e))) (wrap64 a)
      = wrap64 (a * (l.map (fun e => 1 + r e)).prod) := by
  induction l generalizing a with
  | nil => simp
  | cons e es ih =>
    have hstep : wmul (wrap64 a) (wadd 1 (r e))
        = wrap64 (a * (1 + r e)) := by
      unfold wadd
      rw [wmul_wrap_right]
      exact wmul_wrap_left _ _
    simp only [List.foldl_cons, hstep, ih, List.map_cons, List.prod_cons]
    congr 1
    ring

/-- wrap64 fixes 0 and 1. -/
theorem wrap64_zero_one : wrap64 0 = 0 ∧ wrap64 1 = 1 := by decide

/-! ### C4: worst-case latency -/

/-- C4 (amended).  WorstCaseLatency (and the inline worst-case loop of
EndToEndTimeoutExceedRule.Check) equals the exact sum over the edges of
timeout * (1 + max_retries) reduced into the signed 64-bit range by
two's-complement wrapping; the empty path gives 0.  On overflow the
result wraps modulo 2^64 — it does not saturate to the maximum duration
(see the counterexample). -/
theorem C4_latency_wrapping :
    WorstCaseLatency [] = 0 ∧
    (∀ p : List GEdge,
      WorstCaseLatency p
        = wrap64 ((p.map (fun e => e.Timeout * (1 + e.MaxRetries))).sum)) ∧
    (∀ p : List REdge,
      rWorstCase p
        = wrap64 ((p.map (fun e => e.Timeout * (1 + e.MaxRetries))).sum)) := by
  refine ⟨rfl, fun p => ?_, fun p => ?_⟩
  · have h := latency_foldl_wrap (fun e : GEdge => e.Timeout)
      (fun e : GEdge => e.MaxRetries) p 0
    rw [wrap64_zero_one.1] at h
    simpa [WorstCaseLatency] using h
  · have h := latency_foldl_wrap (fun e : REdge => e.Timeout)
      (fun e : REdge => e.MaxRetries) p 0
    rw [wrap64_zero_one.1] at h
    simpa [rWorstCase] using h

/-- C4 counterexample to saturation.  One edge with timeout 2^62 ns and
3 retries: the exact sum is 2^62 * 4 = 2^64, which exceeds the maximum
representable duration 2^63 - 1, yet WorstCaseLatency returns 0 (the
wrapped value), not the maximum duration. -/
theorem C4_saturation_counterexample :
    (([(⟨"A", "B", 4611686018427387904, 3, true, true, true⟩ : GEdge)].map
        (fun e => e.Timeout * (1 + e.MaxRetries))).sum
      = 18446744073709551616) ∧
    (9223372036854775807 : Int) < 18446744073709551616 ∧
    WorstCaseLatency [⟨"A", "B", 4611686018427387904, 3, true, true, true⟩] = 0 ∧
    (0 : Int) ≠ 9223372036854775807 := by
  decide

/-! ### C5: retry amplification factor -/

/-- C5 (amended).  RetryAmplificationFactor equals the exact product over
the edges of (1 + max_retries) reduced into the signed 64-bit range by
two's-complement wrapping; the empty path gives 1.  Whenever the exact
product lies inside the int64 range the wrap is the identity, so the
exact product law of the claim holds there (and fails beyond, see the
counterexample). -/
theorem C5_amplification_wrapping (p : List GEdge) :
    RetryAmplificationFactor p
      = wrap64 ((p.map (fun e => 1 + e.MaxRetries)).prod) ∧
    (-i64Half ≤ (p.map (fun e => 1 + e.MaxRetries)).prod →
      (p.map (fun e => 1 + e.MaxRetries)).prod < i64Half →
      RetryAmplificationFactor p = (p.map (fun e => 1 + e.MaxRetries)).prod) := by
  have hmain : RetryAmplificationFactor p
      = wrap64 ((p.map (fun e => 1 + e.MaxRetries)).prod) := by
    cases p with
    | nil => simp [RetryAmplificationFactor, wrap64_zero_one.2]
    | cons e es =>
      have h := product_foldl_wrap (fun e : GEdge => e.MaxRetries) (e :: es) 1
      rw [wrap64_zero_one.2] at h
      simpa [RetryAmplificationFactor] using h
  exact ⟨hmain, fun h1 h2 => by rw [hmain, wrap64_small h1 h2]⟩

/-- C5 witness: on a concrete in-range path the factor is the exact
product (1 + 3) * (1 + 2) = 12. -/
theorem C5_amplification_witness :
    RetryAmplificationFactor
        [⟨"A", "B", 1, 3, true, true, true⟩, ⟨"B", "C", 1, 2, true, true, true⟩]
      = ([(⟨"A", "B", 1, 3, true, true, true⟩ : GEdge),
          ⟨"B", "C", 1, 2, true, true, true⟩].map
          (fun e => 1 + e.MaxRetries)).prod :=
  (C5_amplification_wrapping
      [⟨"A", "B", 1, 3, true, true, true⟩, ⟨"B", "C", 1, 2, true, true, true⟩]).2
    (by decide) (by decide)

/-- C5 counterexample to the exact product law.  One edge with
max_retries = 2^63 - 1 (a representable Go int): the exact product is
2^63, but the Go int computation wraps to -2^63, so the factor does not
equal the product of (1 + max_retries). -/
theorem C5_overflow_counterexample :
    RetryAmplificationFactor [⟨"A", "B", 1, 9223372036854775807, true, true, true⟩]
      ≠ ([(⟨"A", "B", 1, 9223372036854775807, true, true, true⟩ : GEdge)].map
          (fun e => 1 + e.MaxRetries)).prod := by
  decide

/-! ### C6, C8, C9: rule characterizations -/

/-- Helper: a guarded some equals some iff the guard holds and the
payloads agree. -/
theorem ite_some_eq {α : Type} {c : Prop} [Decidable c] {a b : α} :
    ((if c then some a else none) = some b) ↔ c ∧ a = b := by
  by_cases h : c <;> simp [h]

/-- C6.  TimeoutInversionRule.Check emits, on any graph, exactly one
timeout-inversion violation of severity error per pair of an edge e and a
downstream edge d in OutEdges(e.Target) with e.Timeout > 0 and
d.Timeout > e.Timeout, with path [e.Source, e.Target, d.Target]; in
particular an upstream edge with timeout 0 never contributes. -/
theorem C6_timeout_inversion_rule (g : RCallGraph) (v : Violation) :
    v ∈ TimeoutInversionCheck g ↔
      ∃ e ∈ g.AllEdges, ∃ d ∈ g.OutEdges e.Target,
        0 < e.Timeout ∧ e.Timeout < d.Timeout ∧
        v = ⟨"timeout-inversion", "error", [e.Source, e.Target, d.Target]⟩ := by
  simp only [TimeoutInversionCheck, List.mem_flatMap, List.mem_filterMap,
    ite_some_eq]
  constructor
  · rintro ⟨e, he, d, hd, ⟨h1, h2⟩, hv⟩
    exact ⟨e, he, d, hd, h1, h2, hv.symm⟩
  · rintro ⟨e, he, d, hd, h1, h2, hv⟩
    exact ⟨e, he, d, hd, ⟨h1, h2⟩, hv.symm⟩

/-- C8.  EndToEndTimeoutExceedRule.Check returns no violations when the
configured entry timeout is zero (the rule is disabled and total); when
it is non-zero, it emits exactly one e2e-timeout-exceed violation of
severity error per enumerated path whose worst-case latency exceeds the
entry timeout. -/
theorem C8_e2e_timeout_rule (et : Int) (g : RCallGraph) :
    (et = 0 → EndToEndTimeoutExceedCheck et g = []) ∧
    (et ≠ 0 → ∀ v : Violation,
      v ∈ EndToEndTimeoutExceedCheck et g ↔
        ∃ p ∈ g.Paths, et < rWorstCase p ∧
          v = ⟨"e2e-timeout-exceed", "error", pathNodes p⟩) := by
  constructor
  · intro h
    simp [EndToEndTimeoutExceedCheck, h]
  · intro h v
    simp only [EndToEndTimeoutExceedCheck, if_neg h, List.mem_filterMap,
      ite_some_eq]
    constructor
    · rintro ⟨p, hp, h1, hv⟩
      exact ⟨p, hp, h1, hv.symm⟩
    · rintro ⟨p, hp, h1, hv⟩
      exact ⟨p, hp, h1, hv.symm⟩

/-- C8 witness: with entry timeout 0 the rule is silent on a graph whose
only path has worst-case latency 10; with entry timeout 5 that same path
is flagged. -/
theorem C8_e2e_timeout_witness :
    EndToEndTimeoutExceedCheck 0 rgE2E = [] ∧
    (⟨"e2e-timeout-exceed", "error", ["A", "B"]⟩ : Violation)
      ∈ EndToEndTimeoutExceedCheck 5 rgE2E :=
  ⟨(C8_e2e_timeout_rule 0 rgE2E).1 rfl,
   ((C8_e2e_timeout_rule 5 rgE2E).2 (by decide) _).mpr
     ⟨[reE2E], by decide, by decide, by decide⟩⟩

/-- C9.  On RetryAmplificationRule a configured threshold of exactly 0 is
replaced at check time by the default (error 10, warning 5), so checking
with a zero field behaves identically to checking with the default; and a
negative error threshold is used as-is, so every enumerated path whose
computed factor is at least 1 (every non-empty path with well-ranged
non-negative retries) is emitted as an error violation. -/
theorem C9_zero_threshold_defaults :
    (∀ (w : Int) (g : RCallGraph),
      RetryAmplificationCheck 0 w g = RetryAmplificationCheck 10 w g) ∧
    (∀ (t : Int) (g : RCallGraph),
      RetryAmplificationCheck t 0 g = RetryAmplificationCheck t 5 g) ∧
    (∀ (t w : Int) (g : RCallGraph) (p : List REdge),
      t < 0 → p ∈ g.Paths → 1 ≤ rProduct p →
      (⟨"retry-amplification", "error", pathNodes p⟩ : Violation)
        ∈ RetryAmplificationCheck t w g) := by
  refine ⟨fun w g => by simp [RetryAmplificationCheck],
          fun t g => by simp [RetryAmplificationCheck],
          fun t w g p ht hp hprod => ?_⟩
  have htne : ¬(t = 0) := by omega
  have hgt : (if t = 0 then 10 else t) < rProduct p := by
    rw [if_neg htne]
    omega
  simp only [RetryAmplificationCheck, List.mem_filterMap]
  exact ⟨p, hp, by rw [if_pos hgt]⟩

/-- C9 witness: with a negative error threshold, the zero-retries path of
product 1 is an error violation; and the zero-threshold configuration
agrees with the default-10 configuration on a concrete graph. -/
theorem C9_zero_threshold_witness :
    RetryAmplificationCheck 0 5 rgAB3 = RetryAmplificationCheck 10 5 rgAB3 ∧
    (⟨"retry-amplification", "error", ["A", "B"]⟩ : Violation)
      ∈ RetryAmplificationCheck (-1) 5 rgAB0 :=
  ⟨C9_zero_threshold_defaults.1 5 rgAB3,
   by
     have h := C9_zero_threshold_defaults.2.2 (-1) 5 rgAB0 [reAB0]
       (by decide) (by decide) (by decide)
     simpa using h⟩

/-! ### C7: threshold monotonicity of the amplification rule -/

/-- C7 (amended).  For positive configured thresholds t1 ≤ t2 and a fixed
warning threshold, every violation emitted by RetryAmplificationCheck at
the higher error threshold corresponds to a violation at the lower one
with the same rule and path whose severity is the same or higher (error
where the new one is a warning): raising a positive error threshold only
demotes or removes violations.  The positivity restriction is forced by
the zero-default: a configured 0 means 10, so raising 0 to a small
positive value lowers the effective threshold (see the counterexample). -/
theorem C7_threshold_monotonicity (t1 t2 w : Int) (g : RCallGraph)
    (ht1 : 0 < t1) (ht12 : t1 ≤ t2) (v2 : Violation)
    (hv2 : v2 ∈ RetryAmplificationCheck t2 w g) :
    ∃ v1 ∈ RetryAmplificationCheck t1 w g,
      v1.Rule = v2.Rule ∧ v1.Path = v2.Path ∧
      (v1.Severity = v2.Severity ∨
        (v1.Severity = "error" ∧ v2.Severity = "warning")) := by
  have ht1ne : ¬(t1 = 0) := by omega
  have ht2ne : ¬(t2 = 0) := by omega
  simp only [RetryAmplificationCheck, List.mem_filterMap, if_neg ht1ne,
    if_neg ht2ne] at hv2 ⊢
  obtain ⟨p, hp, hsome⟩ := hv2
  by_cases h2 : t2 < rProduct p
  · rw [if_pos h2] at hsome
    have hv : v2 = ⟨"retry-amplification", "error", pathNodes p⟩ :=
      (Option.some.inj hsome).symm
    refine ⟨⟨"retry-amplification", "error", pathNodes p⟩, ⟨p, hp, ?_⟩, ?_⟩
    · rw [if_pos (lt_of_le_of_lt ht12 h2)]
    · rw [hv]
      exact ⟨rfl, rfl, Or.inl rfl⟩
  · rw [if_neg h2] at hsome
    by_cases hw : (if w = 0 then 5 else w) < rProduct p
    · rw [if_pos hw] at hsome
      have hv : v2 = ⟨"retry-amplification", "warning", pathNodes p⟩ :=
        (Option.some.inj hsome).symm
      by_cases h1 : t1 < rProduct p
      · refine ⟨⟨"retry-amplification", "error", pathNodes p⟩, ⟨p, hp, ?_⟩, ?_⟩
        · rw [if_pos h1]
        · rw [hv]
          exact ⟨rfl, rfl, Or.inr ⟨rfl, rfl⟩⟩
      · refine ⟨⟨"retry-amplification", "warning", pathNodes p⟩, ⟨p, hp, ?_⟩, ?_⟩
        · rw [if_neg h1, if_pos hw]
        · rw [hv]
          exact ⟨rfl, rfl, Or.inl rfl⟩
    · rw [if_neg hw] at hsome
      exact absurd hsome (by simp)

/-- C7 witness: thresholds 7 ≤ 9, warning threshold 5, one path of
product 8.  At threshold 9 the path is a warning; the theorem returns the
corresponding violation at threshold 7 (it is the same path, there as an
error). -/
theorem C7_threshold_monotonicity_witness :
    ∃ v1 ∈ RetryAmplificationCheck 7 5 rgAB7,
      v1.Rule = "retry-amplification" ∧ v1.Path = ["A", "B"] ∧
      (v1.Severity = "warning" ∨ (v1.Severity = "error" ∧ "warning" = "warning")) :=
  C7_threshold_monotonicity 7 9 5 rgAB7 (by decide) (by decide)
    ⟨"retry-amplification", "warning", ["A", "B"]⟩ (by decide)

/-- C7 counterexample.  With warning threshold 5 fixed, increasing the
configured ErrorThreshold from 0 to 3 introduces a brand-new error
violation for a path (product 4) that previously had no violation at all:
0 is replaced by the default 10 at check time, so the configured increase
is an effective decrease.  This falsifies the claim as stated for
configured thresholds. -/
theorem C7_zero_threshold_counterexample :
    (0 : Int) < 3 ∧
    RetryAmplificationCheck 0 5 rgAB3 = [] ∧
    RetryAmplificationCheck 3 5 rgAB3
      = [⟨"retry-amplification", "error", ["A", "B"]⟩] := by
  decide

/-! ### C10: Mermaid red styling -/

/-- Helper characterizing membership in the index-collection loop of
RenderMermaid: an index is collected iff it points (relative to the start
offset) at an edge of the list whose name pair is covered. -/
theorem redIndicesAux_mem (vs : List OutputViolation) (es : List OutputEdge)
    (k i : Nat) :
    i ∈ redIndicesAux vs k es ↔
      ∃ j e, es.get? j = some e ∧ i = k + j ∧
        coveredPair vs e.Source e.Target = true := by
  induction es generalizing k with
  | nil => simp [redIndicesAux]
  | cons e es ih =>
    by_cases hc : coveredPair vs e.Source e.Target = true
    · simp only [redIndicesAux, if_pos hc, List.mem_cons, ih]
      constructor
      · rintro (rfl | ⟨j, e', hj, hi, hcov⟩)
        · exact ⟨0, e, rfl, by omega, hc⟩
        · exact ⟨j + 1, e', by simpa using hj, by omega, hcov⟩
      · rintro ⟨j, e', hj, hi, hcov⟩
        cases j with
        | zero =>
          left
          omega
        | succ j' =>
          right
          exact ⟨j', e', by simpa using hj, by omega, hcov⟩
    · simp only [redIndicesAux, if_neg hc, ih]
      constructor
      · rintro ⟨j, e', hj, hi, hcov⟩
        exact ⟨j + 1, e', by simpa using hj, by omega, hcov⟩
      · rintro ⟨j, e', hj, hi, hcov⟩
        cases j with
        | zero =>
          rw [Option.some.inj (by simpa using hj : some e = some e')] at hc
          exact absurd hcov hc
        | succ j' =>
          exact ⟨j', e', by simpa using hj, by omega, hcov⟩

/-- Helper: the covered-pair test holds iff some violation's path
contains the name pair consecutively. -/
theorem coveredPair_iff (vs : List OutputViolation) (s t : String) :
    coveredPair vs s t = true ↔
      ∃ v ∈ vs, (s, t) ∈ consecPairs v.Path := by
  simp only [coveredPair, List.any_eq_true, decide_eq_true_eq]
  constructor
  · rintro ⟨v, hv, q, hq, h1, h2⟩
    refine ⟨v, hv, ?_⟩
    have : q = (s, t) := by
      cases q
      simp_all
    rwa [this] at hq
  · rintro ⟨v, hv, hq⟩
    exact ⟨v, hv, (s, t), hq, rfl, rfl⟩

/-- C10.  RenderMermaid keys red styling on node-name pairs, not edge
identity: a linkStyle line is emitted for input index i exactly when the
edge at index i has its (source, target) pair occurring consecutively in
some violation's path; hence duplicate edges with the same name pair are
all styled red together; and the rendered line list is the header and
edge lines followed by one linkStyle line per collected index. -/
theorem C10_mermaid_red_styling (g : OutputGraph) (vs : List OutputViolation) :
    (∀ i : Nat, i ∈ redIndices g vs ↔
      ∃ e, g.Edges.get? i = some e ∧
        ∃ v ∈ vs, (e.Source, e.Target) ∈ consecPairs v.Path) ∧
    (∀ (i1 i2 : Nat) (e1 e2 : OutputEdge),
      g.Edges.get? i1 = some e1 → g.Edges.get? i2 = some e2 →
      e1.Source = e2.Source → e1.Target = e2.Target →
      (i1 ∈ redIndices g vs ↔ i2 ∈ redIndices g vs)) ∧
    renderMermaidLines g vs
      = ("graph LR" :: g.Edges.map edgeLine)
        ++ (redIndices g vs).map linkStyleLine := by
  have hchar : ∀ i : Nat, i ∈ redIndices g vs ↔
      ∃ e, g.Edges.get? i = some e ∧
        ∃ v ∈ vs, (e.Source, e.Target) ∈ consecPairs v.Path := by
    intro i
    rw [redIndices, redIndicesAux_mem]
    constructor
    · rintro ⟨j, e, hj, hi, hcov⟩
      refine ⟨e, ?_, (coveredPair_iff vs e.Source e.Target).mp hcov⟩
      rwa [show i = j by omega]
    · rintro ⟨e, hi, hcov⟩
      exact ⟨i, e, hi, by omega, (coveredPair_iff vs e.Source e.Target).mpr hcov⟩
  refine ⟨hchar, fun i1 i2 e1 e2 h1 h2 hs ht => ?_, rfl⟩
  rw [hchar, hchar]
  constructor
  · rintro ⟨e, he, hcov⟩
    rw [h1] at he
    rw [← Option.some.inj he] at hcov
    exact ⟨e2, h2, by rwa [← hs, ← ht]⟩
  · rintro ⟨e, he, hcov⟩
    rw [h2] at he
    rw [← Option.some.inj he] at hcov
    exact ⟨e1, h1, by rwa [hs, ht]⟩

/-- C10 witness: two duplicate edges A -> B at indices 0 and 1 and a
violation covering the pair (A, B): the theorem transfers red styling
between the duplicates, and both are indeed styled. -/
theorem C10_mermaid_red_styling_witness :
    (0 ∈ redIndices ogDup [ovAB] ↔ 1 ∈ redIndices ogDup [ovAB]) ∧
    0 ∈ redIndices ogDup [ovAB] ∧ 1 ∈ redIndices ogDup [ovAB] :=
  ⟨(C10_mermaid_red_styling ogDup [ovAB]).2.1 0 1
      ⟨"A", "B", "3s", 1⟩ ⟨"A", "B", "5s", 2⟩ (by decide) (by decide) rfl rfl,
   by decide, by decide⟩

/-! ### C2: construction performs no validation -/

/-- Helper: the adjacency-building fold of NewGraph appends, at every
key, exactly the edges whose source is that key, in input order. -/
theorem newGraph_adj_aux (edges : List CallEdge) (f : String → List CallEdge)
    (n : String) :
    (edges.foldl
        (fun adj e => fun k => if k = e.Source then adj k ++ [e] else adj k)
        f) n
      = f n ++ edges.filter (fun e => e.Source = n) := by
  induction edges generalizing f with
  | nil => simp
  | cons e es ih =>
    simp only [List.foldl_cons, ih, List.filter_cons]
    by_cases h : e.Source = n
    · simp [h, List.append_assoc]
    · have h2 : ¬(n = e.Source) := fun hn => h hn.symm
      simp [h, h2]

/-- Helper: a fold of AddEdge calls appends the added edges to the edge
record and, at every node, appends exactly the added edges leaving that
node, in call order. -/
theorem addEdge_foldl_aux (es : List GEdge) (g : CallGraph) (n : String) :
    (es.foldl AddEdge g).edges = g.edges ++ es ∧
    (es.foldl AddEdge g).adj n = g.adj n ++ es.filter (fun e => e.From = n) := by
  induction es generalizing g with
  | nil => simp
  | cons e es ih =>
    obtain ⟨ih1, ih2⟩ := ih (AddEdge g e)
    constructor
    · rw [List.foldl_cons, ih1]
      simp [AddEdge]
    · rw [List.foldl_cons, ih2]
      simp only [AddEdge, List.filter_cons]
      by_cases h : e.From = n
      · simp [h]
      · have h2 : ¬(n = e.From) := fun hn => h hn.symm
        simp [h, h2]

/-- C2 (amended).  Graph construction never fails and validates nothing:
for every input edge list — including lists containing edges with
negative timeouts, negative retries or empty endpoints, and including
cycles, self-loops and disconnected subgraphs — NewGraph (analyzer) and
the AddEdge construction (package graph) succeed and produce the graph
holding exactly the input edges, with each adjacency list holding exactly
the out-edges of its node in input order.  No InvalidTopology error
exists in either constructor (their Go signatures cannot return an
error); the per-edge invariants of the spec are enforced only by the YAML
parser, outside graph construction. -/
theorem C2_construction_never_fails (edges : List CallEdge) :
    (NewGraph edges).Edges = edges ∧
    (∀ n, (NewGraph edges).Adj n = edges.filter (fun e => e.Source = n)) ∧
    (∀ (es : List GEdge) (n : String),
      (mkCallGraph es).edges = es ∧
      (mkCallGraph es).adj n = es.filter (fun e => e.From = n)) := by
  refine ⟨rfl, fun n => ?_, fun es n => ?_⟩
  · have h := newGraph_adj_aux edges (fun _ => []) n
    simpa [NewGraph] using h
  · have h := addEdge_foldl_aux es NewCallGraph n
    simpa [mkCallGraph, NewCallGraph] using h

unseal dfsMain in
/-- C2 counterexample.  The edge with empty source, timeout -5 and
retries -2 is accepted by NewGraph: construction succeeds, the malformed
edge is stored intact in the graph and in its adjacency list, and the
full analysis runs on it returning no findings — no InvalidTopology
error is raised at construction or checking (none can be: NewGraph
returns a graph, not an error). -/
theorem C2_invalid_edge_accepted_counterexample :
    ceBad.Source = "" ∧ ceBad.Timeout < 0 ∧ ceBad.Retries < 0 ∧
    (NewGraph [ceBad]).Edges = [ceBad] ∧
    (NewGraph [ceBad]).Adj "" = [ceBad] ∧
    analyzeOrder (NewGraph [ceBad]) [""] = [] := by
  decide

/-! ### C3: determinism of Analyze -/

unseal dfsMain in
/-- C3 (code evidence).  The amplification pass of Analyze iterates the
adjacency map with a Go range-over-map statement, whose enumeration order
is randomized at runtime.  The two key orders below enumerate the same
key set (they are permutations of each other), yet produce different
violation sequences on the two-root graph: the two retry-amplification
findings swap positions.  Hence the output of Analyze is not bit-identical
across runs; it depends on map iteration order. -/
theorem C3_analyze_order_dependent :
    List.Perm ["A", "C"] ["C", "A"] ∧
    analyzeOrder gTwoRoots ["A", "C"] ≠ analyzeOrder gTwoRoots ["C", "A"] := by
  constructor
  · decide
  · decide

/-! ### C1: cycle truncation of path enumeration -/

/-- Helper: appending an edge that leaves the chain's endpoint extends
the chain to the new edge's target. -/
theorem chainTo_append : ∀ (p : List GEdge) (n : String) (e : GEdge),
    chainTo p n → e.From = n → chainTo (p ++ [e]) e.To := by
  intro p
  induction p with
  | nil =>
    intro n e _ _
    simp [chainTo]
  | cons a as ih =>
    intro n e h hf
    cases as with
    | nil =>
      simp only [chainTo] at h
      simp only [List.cons_append, List.nil_append, chainTo]
      exact ⟨by rw [hf, h], by trivial⟩
    | cons b bs =>
      obtain ⟨h1, h2⟩ := h
      have h3 := ih n e h2 hf
      simp only [List.cons_append] at h3 ⊢
      exact ⟨h1, h3⟩

/-- Helper: on a non-empty chain ending at n, the node sequence is the
list of edge sources followed by n. -/
theorem nodeSeq_chainTo : ∀ (p : List GEdge) (n : String), p ≠ [] →
    chainTo p n → nodeSeq p = p.map (fun e => e.From) ++ [n] := by
  intro p
  induction p with
  | nil =>
    intro n h
    exact absurd rfl h
  | cons a as ih =>
    intro n _ hch
    cases as with
    | nil =>
      simp only [chainTo] at hch
      simp [nodeSeq, hch]
    | cons b bs =>
      obtain ⟨h1, h2⟩ := hch
      have hthis := ih n (by simp) h2
      have htail : b.To :: List.map (fun x => x.To) bs
          = List.map (fun e => e.From) bs ++ [n] := by
        have := congrArg List.tail hthis
        simpa [nodeSeq] using this
      simp only [nodeSeq, List.map_cons, List.cons_append]
      rw [h1, ← htail]

/-- Invariant of the graph-package dfs.  Under the stack discipline
(avail is duplicate-free and disjoint from the stack of sources plus the
current node; every edge target of the graph is either available or on
the stack; the accumulated path chains to the current node with a
duplicate-free stack), every emitted path q chains to some final node t,
its node sequence is its sources followed by t, and its sources are
pairwise distinct.  Sources distinctness is exactly cycle truncation:
only the final target may revisit an earlier node. -/
theorem dfsGraph_emitted (g : CallGraph)
    (hadj : ∀ (x : String) (e : GEdge), e ∈ g.adj x → e.From = x ∧ e ∈ g.edges)
    (node : String) (avail : List String) (path : List GEdge) :
    avail.Nodup →
    (path.map (fun e => e.From) ++ [node]).Nodup →
    (∀ x ∈ avail, x ∉ path.map (fun e => e.From) ++ [node]) →
    (∀ e ∈ g.edges, e.To ∈ avail ∨ e.To ∈ path.map (fun e => e.From) ++ [node]) →
    chainTo path node →
    ∀ q ∈ dfsGraph g node avail path,
      ∃ t, nodeSeq q = q.map (fun e => e.From) ++ [t] ∧
        (q.map (fun e => e.From)).Nodup ∧
        (nodeSeq q).getLast? = some t := by
  induction node, avail, path using dfsGraph.induct g with
  | case1 node avail path hempty hpempty =>
    intro _ _ _ _ _ q hq
    rw [dfsGraph, if_pos hempty, if_pos hpempty] at hq
    exact absurd hq (List.not_mem_nil q)
  | case2 node avail path hempty hpne =>
    intro _ h1 _ _ hch q hq
    rw [dfsGraph, if_pos hempty, if_neg hpne] at hq
    have hqe : q = path := List.mem_singleton.mp hq
    subst hqe
    have hne : q ≠ [] := fun h => hpne (by simp [h])
    refine ⟨node, nodeSeq_chainTo q node hne hch, ?_, ?_⟩
    · exact h1.of_append_left
    · rw [nodeSeq_chainTo q node hne hch]
      exact List.getLast?_concat _
  | case3 node avail path hnempty ih =>
    intro h0 h1 h2 h3 hch q hq
    rw [dfsGraph, if_neg hnempty] at hq
    rw [List.mem_flatMap] at hq
    obtain ⟨e, he, hq⟩ := hq
    obtain ⟨hF, hE⟩ := hadj node e he
    have hstack : (path ++ [e]).map (fun e => e.From)
        = path.map (fun e => e.From) ++ [node] := by
      simp [hF]
    by_cases hin : e.To ∈ avail
    · rw [dif_pos hin] at hq
      have hnotin : e.To ∉ path.map (fun e => e.From) ++ [node] := h2 e.To hin
      have h0' : (avail.erase e.To).Nodup := h0.erase _
      have h1' : ((path ++ [e]).map (fun e => e.From) ++ [e.To]).Nodup := by
        rw [hstack]
        refine List.Nodup.append h1 (List.nodup_singleton _) ?_
        intro x hx hx2
        rw [List.mem_singleton.mp hx2] at hx
        exact hnotin hx
      have h2' : ∀ x ∈ avail.erase e.To,
          x ∉ (path ++ [e]).map (fun e => e.From) ++ [e.To] := by
        intro x hx
        rw [hstack]
        obtain ⟨hxne, hxa⟩ := (h0.mem_erase_iff).mp hx
        intro hmem
        rcases List.mem_append.mp hmem with hmem | hmem
        · exact h2 x hxa hmem
        · exact hxne (List.mem_singleton.mp hmem)
      have h3' : ∀ e' ∈ g.edges, e'.To ∈ avail.erase e.To ∨
          e'.To ∈ (path ++ [e]).map (fun e => e.From) ++ [e.To] := by
        intro e' he'
        rw [hstack]
        rcases h3 e' he' with hmem | hmem
        · by_cases heq : e'.To = e.To
          · right
            rw [heq]
            exact List.mem_append_right _ (List.mem_singleton.mpr rfl)
          · left
            exact (h0.mem_erase_iff).mpr ⟨heq, hmem⟩
        · right
          exact List.mem_append_left _ hmem
      have hch' : chainTo (path ++ [e]) e.To := chainTo_append path node e hch hF
      exact ih e hin h0' h1' h2' h3' hch' q hq
    · rw [dif_neg hin] at hq
      have hqe : q = path ++ [e] := List.mem_singleton.mp hq
      have hne : path ++ [e] ≠ [] := by simp
      have hch' : chainTo (path ++ [e]) e.To := chainTo_append path node e hch hF
      rw [hqe]
      refine ⟨e.To, nodeSeq_chainTo _ e.To hne hch', ?_, ?_⟩
      · rw [hstack]
        exact h1
      · rw [nodeSeq_chainTo _ e.To hne hch']
        exact List.getLast?_concat _

/-- C1 (amended).  The property holds for the graph package enumeration:
for every path emitted by CallGraph.AllPathsFrom on a graph built from
any finite AddEdge sequence, no interior node repeats (the node sequence
without its final element is duplicate-free), every node occurs at most
twice, and a node occurring twice is the final element of the node
sequence — the target of the closing back-edge, which is emitted with no
further recursion (were recursion to continue past a back-edge, a source
would repeat).  The main analyzer's dfs does not satisfy this (see the
counterexample): it has no visited set and is bounded only by the
path-length cap. -/
theorem C1_allpaths_cycle_truncation (es : List GEdge) (root : String)
    (q : List GEdge) (hq : q ∈ AllPathsFrom (mkCallGraph es) root) :
    (nodeSeq q).dropLast.Nodup ∧
    (∀ x : String, (nodeSeq q).count x ≤ 2) ∧
    (∀ x : String, (nodeSeq q).count x = 2 →
      (nodeSeq q).getLast? = some x) := by
  have hadj : ∀ (x : String) (e : GEdge),
      e ∈ (mkCallGraph es).adj x → e.From = x ∧ e ∈ (mkCallGraph es).edges := by
    intro x e he
    have hfilter := (addEdge_foldl_aux es NewCallGraph x).2
    simp only [mkCallGraph] at he
    rw [hfilter] at he
    simp only [NewCallGraph, List.nil_append] at he
    obtain ⟨hmem, hdec⟩ := List.mem_filter.mp he
    refine ⟨of_decide_eq_true hdec, ?_⟩
    have hedges := (addEdge_foldl_aux es NewCallGraph x).1
    unfold mkCallGraph
    rw [hedges]
    simp only [NewCallGraph, List.nil_append]
    exact hmem
  have h0 : ((nodesOf (mkCallGraph es)).erase root).Nodup :=
    (List.nodup_dedup _).erase root
  have h1 : (([] : List GEdge).map (fun e => e.From) ++ [root]).Nodup := by
    simp
  have h2 : ∀ x ∈ (nodesOf (mkCallGraph es)).erase root,
      x ∉ ([] : List GEdge).map (fun e => e.From) ++ [root] := by
    intro x hx
    obtain ⟨hxne, _⟩ := ((List.nodup_dedup _).mem_erase_iff).mp hx
    simpa using hxne
  have h3 : ∀ e ∈ (mkCallGraph es).edges,
      e.To ∈ (nodesOf (mkCallGraph es)).erase root ∨
      e.To ∈ ([] : List GEdge).map (fun e => e.From) ++ [root] := by
    intro e he
    have hmem : e.To ∈ nodesOf (mkCallGraph es) := by
      rw [nodesOf, List.mem_dedup, List.mem_flatMap]
      exact ⟨e, he, by simp⟩
    by_cases heq : e.To = root
    · right
      simp [heq]
    · left
      exact ((List.nodup_dedup _).mem_erase_iff).mpr ⟨heq, hmem⟩
  have hmain := dfsGraph_emitted (mkCallGraph es) hadj root
    ((nodesOf (mkCallGraph es)).erase root) [] h0 h1 h2 h3 trivial q hq
  obtain ⟨t, hns, hnd, hlast⟩ := hmain
  refine ⟨?_, ?_, ?_⟩
  · rw [hns, List.dropLast_concat]
    exact hnd
  · intro x
    rw [hns, List.count_append]
    have hc1 : (q.map (fun e => e.From)).count x ≤ 1 :=
      List.nodup_iff_count_le_one.mp hnd x
    have hc2 : ([t] : List String).count x ≤ 1 := List.count_le_length x [t]
    omega
  · intro x hcount
    rw [hns, List.count_append] at hcount
    by_cases hxt : x = t
    · rw [hxt]
      exact hlast
    · have hz : ([t] : List String).count x = 0 := by
        rw [List.count_eq_zero]
        simpa using hxt
      have hc1 : (q.map (fun e => e.From)).count x ≤ 1 :=
        List.nodup_iff_count_le_one.mp hnd x
      omega

unseal dfsGraph in
/-- C1 witness: the self-loop graph X -> X.  AllPathsFrom emits exactly
the one truncated path whose node sequence is [X, X]: X repeats, is the
final element, and occurs exactly twice. -/
theorem C1_allpaths_witness :
    (nodeSeq [eSelfX]).dropLast.Nodup ∧
    (nodeSeq [eSelfX]).count "X" ≤ 2 ∧
    ((nodeSeq [eSelfX]).count "X" = 2 → (nodeSeq [eSelfX]).getLast? = some "X") := by
  have h := C1_allpaths_cycle_truncation [eSelfX] "X" [eSelfX] (by decide)
  exact ⟨h.1, h.2.1 "X", h.2.2 "X"⟩

unseal dfsMain in
/-- C1 counterexample for the main analyzer's dfs.  On the graph with
edges B -> A (3 retries) and the self-loop A -> A (3 retries), the
amplification pass (same findings under either enumeration of the two
adjacency keys, since only B is a root) emits a finding whose path is
[B, A, A, A]: the node A repeats three times and already repeats before
the final edge, and the recursion continued past the back-edge A -> A.
This falsifies the claim as stated for the main analyzer's dfs. -/
theorem C1_main_dfs_counterexample :
    amplificationOrder gLoop ["B", "A"] = amplificationOrder gLoop ["A", "B"] ∧
    (⟨"retry-amplification", "error", ["B", "A", "A", "A"]⟩ : Finding)
      ∈ amplificationOrder gLoop ["B", "A"] ∧
    List.count "A" ["B", "A", "A", "A"] = 3 := by
  decide
